import Mathlib

/-!
# Verification of the abstreet helper scripts

A shallow embedding, in Lean 4, of the small Python scripts of the
a-b-street/abstreet repository:

* `headless/examples/abst_helpers.py` (HTTP wrappers `get`/`post`, `run_sim`,
  `Results.compare`, `avg`),
* `headless/examples/cancel_experiment.py` (its own `run_sim` and
  `compare_results`),
* `headless/examples/cap_experiment.py` (`cap_all_roads`),
* `clickable_links.py` (the URL dispatch),
* `editor/extract_colorscheme.py` (`run`, the duplicate check and the sorted
  output),
* `traffic_signal_data/scripts/upgrade_plans.py` (the JSON schema upgrade).

Python dicts are embedded as association lists in insertion order with the
dict operations (`dictGet` for `d.get(k)` / `k in d`, `dictSet` for
`d[k] = v`, `removeKey` for `del d[k]`); Python sets as duplicate-free lists
(`setAdd` for `s.add(x)`); JSON numbers as rationals.  Theorems about the
embedded functions follow the definitions.
-/

/-! ## Python dict and set primitives -/

/-- `d.get(k)`: the value at the first (hence, for a dict, the only)
occurrence of key `k`, if any. -/
def dictGet {α : Type} {β : Type} [DecidableEq α] : List (α × β) → α → Option β
  | [], _ => none
  | (k2, v) :: rest, k => if k2 = k then some v else dictGet rest k

/-- `d[k] = v`: replace the value at an existing key in place, otherwise
append the new binding at the end (CPython dicts preserve insertion order). -/
def dictSet {α : Type} {β : Type} [DecidableEq α] : List (α × β) → α → β → List (α × β)
  | [], k, v => [(k, v)]
  | (k2, v2) :: rest, k, v =>
    if k2 = k then (k2, v) :: rest else (k2, v2) :: dictSet rest k v

/-- `del d[k]`: drop the (first) binding of key `k`. -/
def removeKey {α : Type} {β : Type} [DecidableEq α] : List (α × β) → α → List (α × β)
  | [], _ => []
  | (k2, v) :: rest, k => if k2 = k then rest else (k2, v) :: removeKey rest k

/-- `s.add(x)` on a set represented as a duplicate-free list. -/
def setAdd {α : Type} [DecidableEq α] (s : List α) (x : α) : List α :=
  if x ∈ s then s else s ++ [x]

lemma dictGet_eq_none {α β : Type} [DecidableEq α] (l : List (α × β)) (k : α) :
    dictGet l k = none ↔ k ∉ l.map Prod.fst := by
  induction l with
  | nil => simp [dictGet]
  | cons p rest ih =>
    obtain ⟨k2, v⟩ := p
    by_cases h : k2 = k
    · subst h; simp [dictGet]
    · simp only [dictGet, if_neg h, ih, List.map_cons, List.mem_cons]
      constructor
      · intro hk
        rintro (hm | hm)
        · exact h hm.symm
        · exact hk hm
      · intro hk hm
        exact hk (Or.inr hm)

lemma dictGet_eq_some_iff {α β : Type} [DecidableEq α] {l : List (α × β)}
    (hnd : (l.map Prod.fst).Nodup) (k : α) (v : β) :
    dictGet l k = some v ↔ (k, v) ∈ l := by
  induction l with
  | nil => simp [dictGet]
  | cons p rest ih =>
    obtain ⟨k2, v2⟩ := p
    simp only [List.map_cons, List.nodup_cons] at hnd
    by_cases h : k2 = k
    · subst h
      simp only [dictGet, if_pos rfl, List.mem_cons]
      constructor
      · rintro h; injection h with h; simp [h]
      · rintro (h | h)
        · injection h with h1 h2; simp [h2]
        · exact absurd (List.mem_map_of_mem Prod.fst h) hnd.1
    · simp only [dictGet, if_neg h, List.mem_cons, ih hnd.2]
      constructor
      · exact fun hm => Or.inr hm
      · rintro (hh | hm)
        · injection hh with h1 h2; exact absurd h1.symm h
        · exact hm

lemma mem_map_fst_of_dictGet {α β : Type} [DecidableEq α] {l : List (α × β)} {k : α} {v : β}
    (h : dictGet l k = some v) : k ∈ l.map Prod.fst := by
  by_contra hk
  rw [← dictGet_eq_none l k] at hk
  rw [h] at hk
  exact Option.noConfusion hk

lemma dictGet_perm {α β : Type} [DecidableEq α] {l₁ l₂ : List (α × β)}
    (hp : l₁.Perm l₂) (hnd : (l₁.map Prod.fst).Nodup) (k : α) :
    dictGet l₁ k = dictGet l₂ k := by
  have hnd₂ : (l₂.map Prod.fst).Nodup := ((hp.map Prod.fst).nodup_iff).mp hnd
  cases hv : dictGet l₁ k with
  | none =>
    rw [dictGet_eq_none] at hv
    have : k ∉ l₂.map Prod.fst := fun hm => hv (((hp.map Prod.fst).mem_iff).mpr hm)
    rw [eq_comm, dictGet_eq_none]
    exact this
  | some v =>
    rw [dictGet_eq_some_iff hnd k v] at hv
    rw [eq_comm, dictGet_eq_some_iff hnd₂ k v]
    exact hp.mem_iff.mp hv

lemma dictGet_dictSet {α β : Type} [DecidableEq α] (l : List (α × β)) (k r : α) (v : β) :
    dictGet (dictSet l k v) r = if k = r then some v else dictGet l r := by
  induction l with
  | nil => by_cases h : k = r <;> simp [dictSet, dictGet, h]
  | cons p rest ih =>
    obtain ⟨k2, v2⟩ := p
    by_cases h2 : k2 = k
    · subst h2
      by_cases h : k2 = r <;> simp [dictSet, dictGet, h]
    · by_cases h : k2 = r
      · subst h
        have : ¬ k = k2 := fun hh => h2 hh.symm
        simp [dictSet, h2, dictGet, this]
      · simp [dictSet, h2, dictGet, h, ih]

lemma map_fst_dictSet {α β : Type} [DecidableEq α] (l : List (α × β)) (k : α) (v : β) :
    (dictSet l k v).map Prod.fst =
      if k ∈ l.map Prod.fst then l.map Prod.fst else l.map Prod.fst ++ [k] := by
  induction l with
  | nil => simp [dictSet]
  | cons p rest ih =>
    obtain ⟨k2, v2⟩ := p
    by_cases h2 : k2 = k
    · subst h2
      simp [dictSet]
    · have : ¬ k = k2 := fun hh => h2 hh.symm
      by_cases hm : k ∈ rest.map Prod.fst <;>
        simp [dictSet, h2, ih, hm, this]

lemma nodup_map_fst_dictSet {α β : Type} [DecidableEq α] {l : List (α × β)}
    (hnd : (l.map Prod.fst).Nodup) (k : α) (v : β) :
    ((dictSet l k v).map Prod.fst).Nodup := by
  rw [map_fst_dictSet]
  by_cases hm : k ∈ l.map Prod.fst
  · simpa [hm] using hnd
  · simp only [hm, if_false]
    rw [List.nodup_append]
    refine ⟨hnd, List.nodup_singleton k, ?_⟩
    intro a ha hb
    rw [List.mem_singleton] at hb
    subst hb
    exact hm ha

lemma mem_setAdd {α : Type} [DecidableEq α] (s : List α) (x y : α) :
    y ∈ setAdd s x ↔ y ∈ s ∨ y = x := by
  unfold setAdd
  by_cases h : x ∈ s
  · simp only [if_pos h]
    constructor
    · exact fun hy => Or.inl hy
    · rintro (hy | rfl)
      · exact hy
      · exact h
  · simp [if_neg h]

/-! ## HTTP requests (claim C1)

`abst_helpers.get` and `abst_helpers.post` wrap `requests.get`/`requests.post`:
they inspect `resp.status_code` and raise `Exception(resp.text)` unless it is
`requests.codes.ok` (that is, 200).  `cancel_experiment.run_sim` and all of
`python_client.py` instead call `requests.get`/`requests.post` directly and
use the response without ever looking at its status code.

A response is embedded by the two fields the scripts consult; a request's
error handling is a function from the received response to `Except`, where
`Except.error t` is a raised `Exception(t)` and `Except.ok` is normal
continuation with the response. -/

structure Response where
  status_code : Nat
  text : String
  deriving DecidableEq, Repr

namespace AbstHelpers

/-- `abst_helpers.get`, lines 5-9: raise `Exception(resp.text)` unless the
status code is `requests.codes.ok` (200); otherwise return `resp` unchanged. -/
def get (resp : Response) : Except String Response :=
  if resp.status_code ≠ 200 then Except.error resp.text else Except.ok resp

/-- `abst_helpers.post`, lines 12-16: same check as `get`. -/
def post (resp : Response) : Except String Response :=
  if resp.status_code ≠ 200 then Except.error resp.text else Except.ok resp

end AbstHelpers

namespace CancelExperiment

/-- `cancel_experiment.run_sim`, lines 59-67: each of its three requests is
issued directly through `requests.post`/`requests.get` with no status-code
inspection, so the response is accepted as-is whatever its status. -/
def rawRequest (resp : Response) : Except String Response :=
  Except.ok resp

end CancelExperiment

/-- Every response handler a script applies to an HTTP response it receives:
the two `abst_helpers` wrappers and the unchecked direct requests of
`cancel_experiment.run_sim`. -/
def scriptRequestHandlers : List (Response → Except String Response) :=
  [AbstHelpers.get, AbstHelpers.post, CancelExperiment.rawRequest]

/-! ## `avg` and `statistics.mean` (claim C8) -/

namespace AbstHelpers

/-- `statistics.mean`: the running sum of the data divided by its length.
On an empty list the library raises `StatisticsError`, embedded as `none`. -/
def statisticsMean (data : List ℚ) : Option ℚ :=
  if data.isEmpty then none
  else some ((data.foldl (fun acc x => acc + x) 0) / data.length)

/-- `abst_helpers.avg`, lines 78-82: `statistics.mean(data)` when `data` is
truthy (non-empty), else `0.0`.  (Total because the empty case is guarded.) -/
def avg (data : List ℚ) : ℚ :=
  if ¬ data.isEmpty then (data.foldl (fun acc x => acc + x) 0) / data.length
  else 0

end AbstHelpers

lemma foldl_add_eq_sum (data : List ℚ) (a : ℚ) :
    data.foldl (fun acc x => acc + x) a = a + data.sum := by
  induction data generalizing a with
  | nil => simp
  | cons x rest ih => simp [ih, add_assoc]

/-- C8: the scripts' mean aggregation is the arithmetic mean.  `avg` returns
`0.0` on the empty list, and on every non-empty list both `avg` (used by
`Results.compare`) and `statistics.mean` (used directly by
`cancel_experiment.compare_results`) report the sum of the elements divided
by their count. -/
theorem avg_is_arithmetic_mean :
    AbstHelpers.avg [] = 0 ∧
    ∀ data : List ℚ, data ≠ [] →
      AbstHelpers.avg data = data.sum / data.length ∧
      AbstHelpers.statisticsMean data = some (data.sum / data.length) := by
  constructor
  · simp [AbstHelpers.avg]
  · intro data hne
    have hE : data.isEmpty = false := by
      cases data with
      | nil => exact absurd rfl hne
      | cons x rest => rfl
    constructor
    · simp [AbstHelpers.avg, hE, foldl_add_eq_sum]
    · simp [AbstHelpers.statisticsMean, hE, foldl_add_eq_sum]

/-- Witness for C8 at the concrete list `[1, 2]`. -/
theorem avg_is_arithmetic_mean_witness :
    AbstHelpers.avg [(1 : ℚ), 2] = List.sum [(1 : ℚ), 2] / (List.length [(1 : ℚ), 2]) :=
  (avg_is_arithmetic_mean.2 [(1 : ℚ), 2] (by simp)).1

/-- C1 counterexample: the claim "every HTTP request issued by the scripts
raises an exception carrying the response text whenever the status code is
not OK" is false.  `cancel_experiment.run_sim` issues its requests directly
and accepts the concrete response with status 500 and body "err" without
raising. -/
theorem http_error_propagation_cex :
    ¬ (∀ handler ∈ scriptRequestHandlers, ∀ resp : Response,
        resp.status_code ≠ 200 → handler resp = Except.error resp.text) := by
  intro h
  have hmem : CancelExperiment.rawRequest ∈ scriptRequestHandlers := by
    simp [scriptRequestHandlers]
  have := h CancelExperiment.rawRequest hmem ⟨500, "err"⟩ (by decide)
  simp [CancelExperiment.rawRequest] at this

/-- C1 amended: the `abst_helpers.get`/`abst_helpers.post` wrappers propagate
server errors (a non-OK status raises an exception carrying the response
text, with no retry; an OK response is returned unchanged), but the requests
that `cancel_experiment.run_sim` issues directly through `requests` never
inspect the status code and accept every response. -/
theorem http_error_propagation_amended (resp : Response) :
    (resp.status_code ≠ 200 →
      AbstHelpers.get resp = Except.error resp.text ∧
      AbstHelpers.post resp = Except.error resp.text) ∧
    (resp.status_code = 200 →
      AbstHelpers.get resp = Except.ok resp ∧
      AbstHelpers.post resp = Except.ok resp) ∧
    CancelExperiment.rawRequest resp = Except.ok resp := by
  refine ⟨fun h => ?_, fun h => ?_, rfl⟩
  · simp [AbstHelpers.get, AbstHelpers.post, h]
  · simp [AbstHelpers.get, AbstHelpers.post, h]

/-- Witness for the amended C1 at status 500, body "boom". -/
theorem http_error_propagation_amended_witness :
    AbstHelpers.get ⟨500, "boom"⟩ = Except.error "boom" :=
  ((http_error_propagation_amended ⟨500, "boom"⟩).1 (by decide)).1

/-! ## `Results.compare` (claims C2 and C10)

`abst_helpers.Results.compare` (lines 55-75) iterates over the experiment
run's `trip_times.items()`, looks the trip up in the baseline's
`trip_times`, skips the trip when `not before_dt` (lookup returned `None` —
or a falsy duration, i.e. `0`), and otherwise appends `before - after` to
`faster` when `before > after` and `after - before` to `slower` when
`after > before`.  `cancel_experiment.compare_results` (lines 89-102) runs
the identical loop.  Trip times are dicts from trip ID to seconds, embedded
as association lists in insertion order. -/

namespace AbstHelpers

/-- The `compare` loop: `baseline` is `self.trip_times`, `items` is
`results2.trip_times.items()` in iteration order; the result is the pair
`(faster, slower)` in append order. -/
def compare (baseline : List (Nat × ℚ)) : List (Nat × ℚ) → List ℚ × List ℚ
  | [] => ([], [])
  | (trip, after_dt) :: rest =>
    let r := compare baseline rest
    match dictGet baseline trip with
    | none => r
    | some before_dt =>
      if before_dt = 0 then r
      else if after_dt < before_dt then ((before_dt - after_dt) :: r.1, r.2)
      else if before_dt < after_dt then (r.1, (after_dt - before_dt) :: r.2)
      else r

end AbstHelpers

/-- C2: a trip of the experiment run contributes `before - after` to `faster`
exactly when its baseline duration is present and truthy and `before > after`,
contributes `after - before` to `slower` exactly when it is present and
truthy and `after > before`, contributes nothing on equal durations, and
trips absent from the baseline are skipped entirely: the two lists are the
corresponding `filterMap`s of the experiment's entries. -/
theorem compare_faster_slower (baseline items : List (Nat × ℚ)) :
    (AbstHelpers.compare baseline items).1 =
      items.filterMap (fun p =>
        match dictGet baseline p.1 with
        | none => none
        | some b => if b ≠ 0 ∧ p.2 < b then some (b - p.2) else none) ∧
    (AbstHelpers.compare baseline items).2 =
      items.filterMap (fun p =>
        match dictGet baseline p.1 with
        | none => none
        | some b => if b ≠ 0 ∧ b < p.2 then some (p.2 - b) else none) := by
  induction items with
  | nil => exact ⟨rfl, rfl⟩
  | cons p rest ih =>
    obtain ⟨trip, after_dt⟩ := p
    obtain ⟨ih1, ih2⟩ := ih
    cases hb : dictGet baseline trip with
    | none =>
      simp only [AbstHelpers.compare, hb, List.filterMap_cons]
      exact ⟨ih1, ih2⟩
    | some b =>
      by_cases h0 : b = 0
      · subst h0
        simp only [AbstHelpers.compare, hb, if_pos rfl, List.filterMap_cons]
        constructor
        · simpa using ih1
        · simpa using ih2
      · rcases lt_trichotomy after_dt b with hlt | heq | hgt
        · have hnlt : ¬ b < after_dt := not_lt_of_gt hlt
          simp only [AbstHelpers.compare, hb, if_neg h0, if_pos hlt, List.filterMap_cons]
          constructor
          · simp [h0, hlt, ih1]
          · simp [h0, hnlt, ih2]
        · subst heq
          simp only [AbstHelpers.compare, hb, if_neg h0, lt_irrefl, if_neg (lt_irrefl after_dt),
            List.filterMap_cons]
          constructor
          · simp [lt_irrefl, ih1]
          · simp [lt_irrefl, ih2]
        · have hnlt : ¬ after_dt < b := not_lt_of_gt hgt
          simp only [AbstHelpers.compare, hb, if_neg h0, if_neg hnlt, if_pos hgt,
            List.filterMap_cons]
          constructor
          · simp [h0, hnlt, ih1]
          · simp [h0, hgt, ih2]

lemma mem_map_fst_of_mem_filter {α β : Type} {p : α × β → Bool} {l : List (α × β)} {k : α}
    (h : k ∈ (l.filter p).map Prod.fst) : k ∈ l.map Prod.fst := by
  rcases List.mem_map.mp h with ⟨pr, hpr, hfst⟩
  exact List.mem_map.mpr ⟨pr, List.mem_of_mem_filter hpr, hfst⟩

/-- The truthiness test on a baseline entry: a duration is truthy exactly
when it is nonzero. -/
def nonzeroEntry (p : Nat × ℚ) : Bool :=
  p.2 ≠ 0

lemma dictGet_filter_ne_zero {l : List (Nat × ℚ)} (hnd : (l.map Prod.fst).Nodup) (k : Nat) :
    dictGet (l.filter nonzeroEntry) k =
      match dictGet l k with
      | none => none
      | some v => if v = 0 then none else some v := by
  induction l with
  | nil => simp [dictGet]
  | cons p rest ih =>
    obtain ⟨k2, v2⟩ := p
    simp only [List.map_cons, List.nodup_cons] at hnd
    by_cases h0 : v2 = 0
    · have hpf : nonzeroEntry (k2, v2) = false := by simp [nonzeroEntry, h0]
      rw [List.filter_cons, hpf]
      by_cases h : k2 = k
      · subst h
        have hnone : dictGet (rest.filter nonzeroEntry) k2 = none := by
          rw [dictGet_eq_none]
          exact fun hm => hnd.1 (mem_map_fst_of_mem_filter hm)
        simp [dictGet, hnone, h0]
      · simp [dictGet, h, ih hnd.2]
    · have hpf : nonzeroEntry (k2, v2) = true := by simp [nonzeroEntry, h0]
      rw [List.filter_cons, hpf]
      by_cases h : k2 = k
      · subst h
        simp [dictGet, h0]
      · simp [dictGet, h, ih hnd.2]

/-- C10: when the baseline maps a trip to duration `0`, `Results.compare`
treats that trip exactly as if it were absent from the baseline: comparing
against the baseline equals comparing against the baseline with all
zero-duration entries removed, so such trips reach neither `faster` nor
`slower`. -/
theorem compare_zero_baseline_as_missing (baseline items : List (Nat × ℚ))
    (hnd : (baseline.map Prod.fst).Nodup) :
    AbstHelpers.compare baseline items =
      AbstHelpers.compare (baseline.filter nonzeroEntry) items := by
  induction items with
  | nil => rfl
  | cons p rest ih =>
    obtain ⟨trip, after_dt⟩ := p
    have hfl := dictGet_filter_ne_zero hnd trip
    cases hb : dictGet baseline trip with
    | none =>
      rw [hb] at hfl
      simp only [AbstHelpers.compare, hb, hfl, ih]
    | some b =>
      rw [hb] at hfl
      by_cases h0 : b = 0
      · subst h0
        have hfl2 : dictGet (baseline.filter nonzeroEntry) trip = none := by
          rw [hfl]; simp
        simp only [AbstHelpers.compare, hb, hfl2, ih]
        simp
      · have hfl2 : dictGet (baseline.filter nonzeroEntry) trip = some b := by
          rw [hfl]; simp [h0]
        simp only [AbstHelpers.compare, hb, hfl2, ih]

/-- Witness for C10: trip 1 has baseline duration 0 and is excluded. -/
theorem compare_zero_baseline_witness :
    AbstHelpers.compare [(1, (0 : ℚ)), (2, 5)] [(1, 3), (2, 4)] =
      AbstHelpers.compare ([(1, (0 : ℚ)), (2, 5)].filter nonzeroEntry) [(1, 3), (2, 4)] :=
  compare_zero_baseline_as_missing [(1, (0 : ℚ)), (2, 5)] [(1, 3), (2, 4)] (by decide)

/-! ## `clickable_links.py` (claim C3)

The script reads `sys.argv[1]` and launches exactly one program via
`os.execvp`, which replaces the process image and never returns on success,
so at most one launch can happen even though the first `if` is not part of
the `if/elif/else` chain that follows it.  Arguments are embedded as lists
of characters; `arg[len(p):]` is `List.drop p.length`. -/

namespace ClickableLinks

/-- The program `os.execvp` hands control to, together with the string it is
given: `most <suffix>`, `tail -f <suffix>`, `cargo run <suffix>` (inside the
game directory), or `xdg-open <arg>`. -/
inductive Launcher where
  | most (s : List Char)
  | tailF (s : List Char)
  | cargoRun (s : List Char)
  | xdgOpen (s : List Char)
  deriving DecidableEq, Repr

/-- The pattern of the first branch, `'http://most/'`. -/
def mostPat : List Char := "http://most/".data

/-- The pattern of the second branch, `'http://tail/'`. -/
def tailPat : List Char := "http://tail/".data

/-- The pattern of the third branch, `'http://ui/'`. -/
def uiPat : List Char := "http://ui/".data

/-- `clickable_links.py`, lines 12-20: the dispatch over `sys.argv[1]`. -/
def dispatch (arg : List Char) : Launcher :=
  if mostPat.isPrefixOf arg then Launcher.most (arg.drop mostPat.length)
  else if tailPat.isPrefixOf arg then Launcher.tailF (arg.drop tailPat.length)
  else if uiPat.isPrefixOf arg then Launcher.cargoRun (arg.drop uiPat.length)
  else Launcher.xdgOpen arg

end ClickableLinks

lemma isPrefixOf_append_self (p s : List Char) : p.isPrefixOf (p ++ s) = true := by
  rw [List.isPrefixOf_iff_prefix]
  exact ⟨s, rfl⟩

lemma not_isPrefixOf_of_ne_append {p arg : List Char}
    (hne : ∀ s, arg ≠ p ++ s) : p.isPrefixOf arg = false := by
  cases hb : p.isPrefixOf arg with
  | false => rfl
  | true =>
    exfalso
    have hpre : p <+: arg := by
      rwa [List.isPrefixOf_iff_prefix] at hb
    obtain ⟨s, hs⟩ := hpre
    exact hne s hs.symm

lemma ne_append_of_take_ne {p arg : List Char} (n : Nat) (hn : n ≤ p.length)
    (h : arg.take n ≠ p.take n) : ∀ s, arg ≠ p ++ s := by
  intro s hs
  apply h
  rw [hs, List.take_append_of_le_length hn]

/-- C3: the URL dispatch invokes exactly one launcher per argument.  An
argument of the form `'http://most/' ++ s` runs `most` on the suffix `s`,
`'http://tail/' ++ s` runs `tail -f` on `s`, `'http://ui/' ++ s` runs
`cargo run` on `s`, and an argument starting with none of the three patterns
is passed unchanged to `xdg-open`; `dispatch` being a function into a single
`Launcher` value (because `os.execvp` never returns), no argument triggers
more than one launcher. -/
theorem clickable_links_dispatch :
    (∀ s, ClickableLinks.dispatch (ClickableLinks.mostPat ++ s) = ClickableLinks.Launcher.most s) ∧
    (∀ s, ClickableLinks.dispatch (ClickableLinks.tailPat ++ s) = ClickableLinks.Launcher.tailF s) ∧
    (∀ s, ClickableLinks.dispatch (ClickableLinks.uiPat ++ s) = ClickableLinks.Launcher.cargoRun s) ∧
    (∀ arg, (∀ s, arg ≠ ClickableLinks.mostPat ++ s) →
      (∀ s, arg ≠ ClickableLinks.tailPat ++ s) →
      (∀ s, arg ≠ ClickableLinks.uiPat ++ s) →
      ClickableLinks.dispatch arg = ClickableLinks.Launcher.xdgOpen arg) := by
  refine ⟨fun s => ?_, fun s => ?_, fun s => ?_, fun arg h1 h2 h3 => ?_⟩
  · rw [ClickableLinks.dispatch, if_pos (isPrefixOf_append_self _ s), List.drop_left]
  · have hm : ClickableLinks.mostPat.isPrefixOf (ClickableLinks.tailPat ++ s) = false := by
      apply not_isPrefixOf_of_ne_append
      apply ne_append_of_take_ne 12 (by decide)
      rw [List.take_append_of_le_length (by decide)]
      decide
    rw [ClickableLinks.dispatch, hm]
    simp only [Bool.false_eq_true, if_false]
    rw [if_pos (isPrefixOf_append_self _ s), List.drop_left]
  · have hm : ClickableLinks.mostPat.isPrefixOf (ClickableLinks.uiPat ++ s) = false := by
      apply not_isPrefixOf_of_ne_append
      apply ne_append_of_take_ne 10 (by decide)
      rw [List.take_append_of_le_length (by decide)]
      decide
    have ht : ClickableLinks.tailPat.isPrefixOf (ClickableLinks.uiPat ++ s) = false := by
      apply not_isPrefixOf_of_ne_append
      apply ne_append_of_take_ne 10 (by decide)
      rw [List.take_append_of_le_length (by decide)]
      decide
    rw [ClickableLinks.dispatch, hm, ht]
    simp only [Bool.false_eq_true, if_false]
    rw [if_pos (isPrefixOf_append_self _ s), List.drop_left]
  · rw [ClickableLinks.dispatch, not_isPrefixOf_of_ne_append h1,
      not_isPrefixOf_of_ne_append h2, not_isPrefixOf_of_ne_append h3]
    simp

/-- Witness for C3: a `most` link and a plain URL at concrete arguments. -/
theorem clickable_links_dispatch_witness :
    ClickableLinks.dispatch (ClickableLinks.mostPat ++ "x.log".data) =
      ClickableLinks.Launcher.most "x.log".data ∧
    ClickableLinks.dispatch "https://a.com".data =
      ClickableLinks.Launcher.xdgOpen "https://a.com".data :=
  ⟨clickable_links_dispatch.1 "x.log".data,
    clickable_links_dispatch.2.2.2 "https://a.com".data
      (ne_append_of_take_ne 12 (by decide) (by decide))
      (ne_append_of_take_ne 12 (by decide) (by decide))
      (ne_append_of_take_ne 10 (by decide) (by decide))⟩

/-! ## `extract_colorscheme.py` (claims C4 and C5)

`run` walks the `.rs` files under `src/` (skipping `colors.rs`) and collects
`(key, value)` pairs via `read_file`; the walk and the textual parser are
outside these two claims, so the embedding takes as input `entries`, the
concatenated list of extracted pairs in scan order.  Duplicate keys raise
`ValueError('Color {k} defined twice')`; otherwise the script writes the
output file, whose `m.insert` lines enumerate `sorted(mapping.iterkeys())`.
The generated file is embedded by its list of insert lines, each line
represented by its `(key, mapping[key])` pair. -/

namespace ExtractColorscheme

/-- The accumulation loop of `run` (lines 8-16): fold the extracted entries
into `mapping` (an insertion-ordered dict), raising `ValueError` when a key
is already present. -/
def buildMapping : List (String × String) → List (String × String) →
    Except String (List (String × String))
  | acc, [] => Except.ok acc
  | acc, (k, v) :: rest =>
    if k ∈ acc.map Prod.fst then Except.error ("Color " ++ k ++ " defined twice")
    else buildMapping (acc ++ [(k, v)]) rest

/-- The `m.insert` lines of the generated Rust source (lines 21-22): one line
per key of `mapping`, enumerated in `sorted(mapping.iterkeys())` order, each
carrying `mapping[k]` (total: the `getD` default is never reached, every
sorted key being a key of `mapping`). -/
def insertLines (mapping : List (String × String)) : List (String × String) :=
  (List.insertionSort (fun a b : String => a ≤ b) (mapping.map Prod.fst)).map
    (fun k => (k, (dictGet mapping k).getD ""))

/-- `run` on the extracted entries: the duplicate-checked mapping, then on
success the generated insert lines. -/
def run (entries : List (String × String)) : Except String (List (String × String)) :=
  (buildMapping [] entries).map insertLines

end ExtractColorscheme

lemma buildMapping_ok {rest acc : List (String × String)}
    (hnd : (((acc ++ rest)).map Prod.fst).Nodup) :
    ExtractColorscheme.buildMapping acc rest = Except.ok (acc ++ rest) := by
  induction rest generalizing acc with
  | nil => simp [ExtractColorscheme.buildMapping]
  | cons p rest ih =>
    obtain ⟨k, v⟩ := p
    have hsplit : ((acc ++ (k, v) :: rest).map Prod.fst) =
        acc.map Prod.fst ++ k :: rest.map Prod.fst := by
      simp
    rw [hsplit, List.nodup_append] at hnd
    have hk : k ∉ acc.map Prod.fst := fun hmem =>
      hnd.2.2 hmem (List.mem_cons_self k _)
    have hnd' : (((acc ++ [(k, v)]) ++ rest).map Prod.fst).Nodup := by
      rw [List.append_assoc, List.singleton_append, hsplit, List.nodup_append]
      exact hnd
    have := ih hnd'
    rw [List.append_assoc, List.singleton_append] at this
    simp only [ExtractColorscheme.buildMapping, if_neg hk]
    exact this

lemma buildMapping_error {rest acc : List (String × String)}
    (hndacc : (acc.map Prod.fst).Nodup)
    (hnd : ¬ ((acc ++ rest).map Prod.fst).Nodup) :
    ∃ k, 1 < ((acc ++ rest).map Prod.fst).count k ∧
      ExtractColorscheme.buildMapping acc rest =
        Except.error ("Color " ++ k ++ " defined twice") := by
  induction rest generalizing acc with
  | nil =>
    exfalso
    apply hnd
    simpa using hndacc
  | cons p rest ih =>
    obtain ⟨k, v⟩ := p
    by_cases hk : k ∈ acc.map Prod.fst
    · refine ⟨k, ?_, ?_⟩
      · have h1 : 0 < (acc.map Prod.fst).count k := List.count_pos_iff.mpr hk
        have hsplit : ((acc ++ (k, v) :: rest).map Prod.fst) =
            acc.map Prod.fst ++ k :: rest.map Prod.fst := by
          simp
        rw [hsplit, List.count_append, List.count_cons_self]
        omega
      · simp [ExtractColorscheme.buildMapping, hk]
    · have hacc' : ((acc ++ [(k, v)]).map Prod.fst).Nodup := by
        rw [List.map_append, List.nodup_append]
        refine ⟨hndacc, by simp, ?_⟩
        intro a ha hb
        simp only [List.map_cons, List.map_nil, List.mem_singleton] at hb
        subst hb
        exact hk ha
      have hnd' : ¬ (((acc ++ [(k, v)]) ++ rest).map Prod.fst).Nodup := by
        rw [List.append_assoc, List.singleton_append]
        exact hnd
      obtain ⟨k', hcount, heq⟩ := ih hacc' hnd'
      rw [List.append_assoc, List.singleton_append] at hcount
      refine ⟨k', hcount, ?_⟩
      simp only [ExtractColorscheme.buildMapping, if_neg hk]
      exact heq

/-- C4: `run` raises `ValueError('Color {k} defined twice')` for a key `k`
extracted more than once exactly when the extracted keys are not pairwise
distinct; with all keys distinct no error is raised and the output file is
written (with the mapping holding every entry in scan order). -/
theorem extractor_duplicate_check (entries : List (String × String)) :
    ((entries.map Prod.fst).Nodup →
      ExtractColorscheme.run entries =
        Except.ok (ExtractColorscheme.insertLines entries)) ∧
    (¬ (entries.map Prod.fst).Nodup →
      ∃ k, 1 < (entries.map Prod.fst).count k ∧
        ExtractColorscheme.run entries =
          Except.error ("Color " ++ k ++ " defined twice")) := by
  constructor
  · intro h
    unfold ExtractColorscheme.run
    rw [buildMapping_ok (by simpa using h)]
    rfl
  · intro h
    obtain ⟨k, hc, he⟩ :=
      @buildMapping_error entries [] (by simp) (by simpa using h)
    refine ⟨k, by simpa using hc, ?_⟩
    unfold ExtractColorscheme.run
    rw [he]
    rfl

/-- Witness for C4: a single entry is unique, so the output is written. -/
theorem extractor_duplicate_check_witness :
    ExtractColorscheme.run [("a", "x")] =
      Except.ok (ExtractColorscheme.insertLines [("a", "x")]) :=
  (extractor_duplicate_check [("a", "x")]).1 (by decide)

lemma map_fst_insertLines (mapping : List (String × String)) :
    (ExtractColorscheme.insertLines mapping).map Prod.fst =
      List.insertionSort (fun a b : String => a ≤ b) (mapping.map Prod.fst) := by
  unfold ExtractColorscheme.insertLines
  rw [List.map_map]
  exact List.map_id _

/-- C5: in the generated Rust source, each extracted key appears in exactly
one insert line (count one for extracted keys, zero for all others), the
insert lines are in ascending lexicographic key order, and the generated
lines are identical for any two scan orders of the same entries. -/
theorem extractor_output_sorted (e₁ e₂ : List (String × String))
    (hnd : (e₁.map Prod.fst).Nodup) (hp : e₁.Perm e₂) :
    ((ExtractColorscheme.insertLines e₁).map Prod.fst).Sorted (· ≤ ·) ∧
    (∀ k, ((ExtractColorscheme.insertLines e₁).map Prod.fst).count k =
      if k ∈ e₁.map Prod.fst then 1 else 0) ∧
    ExtractColorscheme.insertLines e₁ = ExtractColorscheme.insertLines e₂ := by
  have hperm : (List.insertionSort (fun a b : String => a ≤ b) (e₁.map Prod.fst)).Perm
      (e₁.map Prod.fst) := List.perm_insertionSort _ _
  refine ⟨?_, ?_, ?_⟩
  · rw [map_fst_insertLines]
    exact List.sorted_insertionSort _ _
  · intro k
    rw [map_fst_insertLines, hperm.count_eq k]
    by_cases hm : k ∈ e₁.map Prod.fst
    · rw [if_pos hm]
      exact List.count_eq_one_of_mem hnd hm
    · rw [if_neg hm]
      exact List.count_eq_zero.mpr hm
  · have hkeys : (e₁.map Prod.fst).Perm (e₂.map Prod.fst) := hp.map Prod.fst
    have hnd₂ : (e₂.map Prod.fst).Nodup := hkeys.nodup_iff.mp hnd
    have hsorted : List.insertionSort (fun a b : String => a ≤ b) (e₁.map Prod.fst) =
        List.insertionSort (fun a b : String => a ≤ b) (e₂.map Prod.fst) := by
      apply List.eq_of_perm_of_sorted
        (hperm.trans (hkeys.trans (List.perm_insertionSort _ _).symm))
        (List.sorted_insertionSort _ _) (List.sorted_insertionSort _ _)
    unfold ExtractColorscheme.insertLines
    rw [hsorted]
    apply List.map_congr_left
    intro k _
    rw [dictGet_perm hp hnd k]

/-- Witness for C5: two scan orders of the same two entries generate the same
insert lines. -/
theorem extractor_output_sorted_witness :
    ExtractColorscheme.insertLines [("b", "y"), ("a", "x")] =
      ExtractColorscheme.insertLines [("a", "x"), ("b", "y")] :=
  (extractor_output_sorted [("b", "y"), ("a", "x")] [("a", "x"), ("b", "y")]
    (by decide) (by decide)).2.2

/-! ## `cap_experiment.py` (claim C6)

`cap_all_roads` (lines 78-95) reads the per-road throughput counts — rows
`(road, agent_type, hour, count)` — keeps, per road, the maximum `'Car'`
count over any hour, computes `cap = int((args.cap_pct / 100.0) * count)`
and, when `cap > 10`, fetches that road's `ChangeRoad` command from the
server and sets its `cap_vehicles_per_hour` to `cap`.  A command is embedded
by the pair (road id, the `cap_vehicles_per_hour` written into it); the
fetched command template carries no other data the script depends on.
`int()` on the non-negative product is embedded as the floor of the exact
rational `cap_pct * count / 100` (the binary-float rounding of
`cap_pct / 100.0` is abstracted to exact arithmetic). -/

namespace CapExperiment

/-- One row of `/data/get-road-thruput`'s `counts`. -/
structure ThruputEntry where
  road : Nat
  agent : String
  hour : Nat
  count : Nat
  deriving DecidableEq, Repr

/-- `int((args.cap_pct / 100.0) * count)` over exact rationals. -/
def cap_value (cap_pct count : Nat) : ℤ :=
  Rat.floor ((cap_pct * count : ℚ) / 100)

/-- The first loop of `cap_all_roads` (lines 81-85): keep, per road, the
largest `'Car'` count seen so far. -/
def max_per_road_loop : List (Nat × Nat) → List ThruputEntry → List (Nat × Nat)
  | acc, [] => acc
  | acc, e :: rest =>
    if e.agent = "Car" then
      match dictGet acc e.road with
      | none => max_per_road_loop (dictSet acc e.road e.count) rest
      | some m =>
        if m < e.count then max_per_road_loop (dictSet acc e.road e.count) rest
        else max_per_road_loop acc rest
    else max_per_road_loop acc rest

/-- `max_per_road` after the first loop. -/
def max_per_road (thruput : List ThruputEntry) : List (Nat × Nat) :=
  max_per_road_loop [] thruput

/-- The second loop of `cap_all_roads` (lines 86-95): one command per road
whose cap exceeds 10. -/
def cap_all_roads (cap_pct : Nat) (thruput : List ThruputEntry) : List (Nat × ℤ) :=
  (max_per_road thruput).filterMap (fun rc =>
    if 10 < cap_value cap_pct rc.2 then some (rc.1, cap_value cap_pct rc.2) else none)

/-- Whether some throughput row records a `'Car'` crossing of road `r`. -/
def has_car_entry (r : Nat) (thruput : List ThruputEntry) : Bool :=
  thruput.any (fun e => e.agent == "Car" && e.road == r)

/-- The maximum hourly `'Car'` count recorded for road `r` (0 when there is
none). -/
def max_car_count (r : Nat) (thruput : List ThruputEntry) : Nat :=
  ((thruput.filter (fun e => e.agent == "Car" && e.road == r)).map ThruputEntry.count).foldr
    max 0

end CapExperiment


lemma max_car_count_cons_skip {e : CapExperiment.ThruputEntry} {r : Nat}
    (h : (e.agent == "Car" && e.road == r) = false)
    (rest : List CapExperiment.ThruputEntry) :
    CapExperiment.max_car_count r (e :: rest) = CapExperiment.max_car_count r rest := by
  unfold CapExperiment.max_car_count
  rw [List.filter_cons, h]
  simp

lemma has_car_entry_cons_skip {e : CapExperiment.ThruputEntry} {r : Nat}
    (h : (e.agent == "Car" && e.road == r) = false)
    (rest : List CapExperiment.ThruputEntry) :
    CapExperiment.has_car_entry r (e :: rest) = CapExperiment.has_car_entry r rest := by
  unfold CapExperiment.has_car_entry
  rw [List.any_cons, h]
  rfl

lemma max_per_road_loop_lookup (l : List CapExperiment.ThruputEntry)
    (acc : List (Nat × Nat)) (r : Nat) :
    dictGet (CapExperiment.max_per_road_loop acc l) r =
      match dictGet acc r with
      | some m => some (max m (CapExperiment.max_car_count r l))
      | none =>
        if CapExperiment.has_car_entry r l then some (CapExperiment.max_car_count r l)
        else none := by
  induction l generalizing acc with
  | nil =>
    cases h : dictGet acc r with
    | none =>
      simp only [CapExperiment.max_per_road_loop]
      rw [h]
      simp [CapExperiment.has_car_entry]
    | some m =>
      simp only [CapExperiment.max_per_road_loop]
      rw [h]
      simp [CapExperiment.max_car_count]
  | cons e rest ih =>
    by_cases hagent : e.agent = "Car"
    · by_cases hroad : e.road = r
      · have hhead : (e.agent == "Car" && e.road == r) = true := by
          simp [hagent, hroad]
        have hmax : CapExperiment.max_car_count r (e :: rest) =
            max e.count (CapExperiment.max_car_count r rest) := by
          unfold CapExperiment.max_car_count
          rw [List.filter_cons, hhead]
          rfl
        have hcar : CapExperiment.has_car_entry r (e :: rest) = true := by
          simp [CapExperiment.has_car_entry, hagent, hroad]
        cases h : dictGet acc r with
        | none =>
          have hz : dictGet acc e.road = none := by rwa [hroad]
          simp only [CapExperiment.max_per_road_loop, if_pos hagent, hz]
          rw [ih, dictGet_dictSet, hroad, hmax, hcar]
          simp
        | some m =>
          have hz : dictGet acc e.road = some m := by rwa [hroad]
          by_cases hlt : m < e.count
          · simp only [CapExperiment.max_per_road_loop, if_pos hagent, hz, if_pos hlt]
            rw [ih, dictGet_dictSet, hroad, hmax]
            have hmm : max m (max e.count (CapExperiment.max_car_count r rest)) =
                max e.count (CapExperiment.max_car_count r rest) :=
              max_eq_right (le_trans (Nat.le_of_lt hlt) (le_max_left _ _))
            simp [hmm]
          · simp only [CapExperiment.max_per_road_loop, if_pos hagent, hz, if_neg hlt]
            rw [ih, h, hmax]
            have hmm : max m (max e.count (CapExperiment.max_car_count r rest)) =
                max m (CapExperiment.max_car_count r rest) := by
              rw [← max_assoc, max_eq_left (not_lt.mp hlt)]
            simp [hmm]
      · have hhead : (e.agent == "Car" && e.road == r) = false := by
          simp [hroad]
        rw [max_car_count_cons_skip hhead, has_car_entry_cons_skip hhead]
        cases hz : dictGet acc e.road with
        | none =>
          simp only [CapExperiment.max_per_road_loop, if_pos hagent, hz]
          rw [ih, dictGet_dictSet, if_neg hroad]
        | some m =>
          by_cases hlt : m < e.count
          · simp only [CapExperiment.max_per_road_loop, if_pos hagent, hz, if_pos hlt]
            rw [ih, dictGet_dictSet, if_neg hroad]
          · simp only [CapExperiment.max_per_road_loop, if_pos hagent, hz, if_neg hlt]
            rw [ih]
    · have hhead : (e.agent == "Car" && e.road == r) = false := by
        simp [hagent]
      rw [max_car_count_cons_skip hhead, has_car_entry_cons_skip hhead]
      simp only [CapExperiment.max_per_road_loop, if_neg hagent]
      rw [ih]

lemma nodup_max_per_road_loop (l : List CapExperiment.ThruputEntry)
    (acc : List (Nat × Nat)) (hnd : (acc.map Prod.fst).Nodup) :
    ((CapExperiment.max_per_road_loop acc l).map Prod.fst).Nodup := by
  induction l generalizing acc with
  | nil => exact hnd
  | cons e rest ih =>
    by_cases hagent : e.agent = "Car"
    · cases hz : dictGet acc e.road with
      | none =>
        simp only [CapExperiment.max_per_road_loop, if_pos hagent, hz]
        exact ih _ (nodup_map_fst_dictSet hnd _ _)
      | some m =>
        by_cases hlt : m < e.count
        · simp only [CapExperiment.max_per_road_loop, if_pos hagent, hz, if_pos hlt]
          exact ih _ (nodup_map_fst_dictSet hnd _ _)
        · simp only [CapExperiment.max_per_road_loop, if_pos hagent, hz, if_neg hlt]
          exact ih _ hnd
    · simp only [CapExperiment.max_per_road_loop, if_neg hagent]
      exact ih _ hnd

/-- C6: `cap_all_roads` emits a command `(r, c)` exactly when road `r` has at
least one `'Car'` throughput row and `c = int((cap_pct/100.0) * M) > 10`,
where `M` is the maximum hourly `'Car'` count recorded for `r`; roads with no
`'Car'` rows receive no command. -/
theorem cap_all_roads_spec (cap_pct : Nat) (thruput : List CapExperiment.ThruputEntry)
    (r : Nat) (c : ℤ) :
    (r, c) ∈ CapExperiment.cap_all_roads cap_pct thruput ↔
      (CapExperiment.has_car_entry r thruput = true ∧
       c = CapExperiment.cap_value cap_pct (CapExperiment.max_car_count r thruput) ∧
       10 < c) := by
  have hnd : ((CapExperiment.max_per_road thruput).map Prod.fst).Nodup :=
    nodup_max_per_road_loop thruput [] (by simp)
  have hlook := max_per_road_loop_lookup thruput [] r
  have hnilGet : dictGet ([] : List (Nat × Nat)) r = none := rfl
  rw [hnilGet] at hlook
  unfold CapExperiment.cap_all_roads
  rw [List.mem_filterMap]
  constructor
  · rintro ⟨⟨r', m⟩, hmem, hf⟩
    by_cases hcap : 10 < CapExperiment.cap_value cap_pct m
    · rw [if_pos hcap] at hf
      injection hf with h1
      injection h1 with hr hc
      subst hr
      have hsome : dictGet (CapExperiment.max_per_road thruput) r' = some m :=
        (dictGet_eq_some_iff hnd r' m).mpr hmem
      rw [CapExperiment.max_per_road] at hsome
      rw [hsome] at hlook
      by_cases hcar : CapExperiment.has_car_entry r' thruput = true
      · rw [if_pos hcar] at hlook
        injection hlook with hm
        refine ⟨hcar, ?_, ?_⟩
        · rw [← hc, hm]
        · rw [← hc]; exact hcap
      · rw [if_neg hcar] at hlook
        exact Option.noConfusion hlook
    · rw [if_neg hcap] at hf
      exact Option.noConfusion hf
  · rintro ⟨hcar, hc, hgt⟩
    rw [if_pos hcar] at hlook
    refine ⟨(r, CapExperiment.max_car_count r thruput), ?_, ?_⟩
    · exact (dictGet_eq_some_iff hnd r _).mp hlook
    · subst hc
      rw [if_pos hgt]

/-! ## `upgrade_plans.py` (claim C7)

For each file named on the command line the script loads a JSON object,
replaces the top-level `stages`/`offset_seconds` pair by a one-element
`plans` list, and writes the object back.  JSON values are embedded as an
inductive type; an object's fields form an insertion-ordered dict.  Reading
`data['stages']` or deleting a missing key raises `KeyError`, embedded as
`none`. -/

inductive JValue where
  | null
  | bool (b : Bool)
  | num (q : ℚ)
  | str (s : String)
  | arr (elems : List JValue)
  | obj (fields : List (String × JValue))

namespace UpgradePlans

/-- The per-file transformation (lines 16-22): set `data['plans']` to the
one-element list built from the old `stages` and `offset_seconds`, then
delete those two keys. -/
def upgrade (data : List (String × JValue)) : Option (List (String × JValue)) :=
  match dictGet data "stages", dictGet data "offset_seconds" with
  | some stages, some offset =>
    some (removeKey (removeKey
      (dictSet data "plans"
        (JValue.arr [JValue.obj
          [("start_time_seconds", JValue.num 0),
           ("stages", stages),
           ("offset_seconds", offset)]]))
      "stages") "offset_seconds")
  | _, _ => none

end UpgradePlans

lemma dictGet_removeKey_ne {α β : Type} [DecidableEq α] (l : List (α × β)) {k k' : α}
    (h : k' ≠ k) : dictGet (removeKey l k) k' = dictGet l k' := by
  induction l with
  | nil => rfl
  | cons p rest ih =>
    obtain ⟨k2, v⟩ := p
    by_cases h2 : k2 = k
    · subst h2
      have hne : ¬ k2 = k' := fun hh => h hh.symm
      simp [removeKey, dictGet, hne]
    · by_cases h3 : k2 = k'
      · subst h3
        simp [removeKey, h2, dictGet]
      · simp [removeKey, h2, dictGet, h3, ih]

lemma dictGet_removeKey_self {α β : Type} [DecidableEq α] {l : List (α × β)}
    (hnd : (l.map Prod.fst).Nodup) (k : α) :
    dictGet (removeKey l k) k = none := by
  induction l with
  | nil => rfl
  | cons p rest ih =>
    obtain ⟨k2, v⟩ := p
    simp only [List.map_cons, List.nodup_cons] at hnd
    by_cases h2 : k2 = k
    · subst h2
      simp only [removeKey, if_pos rfl]
      rw [dictGet_eq_none]
      exact hnd.1
    · simp [removeKey, h2, dictGet, ih hnd.2]

lemma map_fst_removeKey_sublist {α β : Type} [DecidableEq α] (l : List (α × β)) (k : α) :
    List.Sublist ((removeKey l k).map Prod.fst) (l.map Prod.fst) := by
  induction l with
  | nil => exact List.Sublist.refl _
  | cons p rest ih =>
    obtain ⟨k2, v⟩ := p
    by_cases h2 : k2 = k
    · simp only [removeKey, if_pos h2, List.map_cons]
      exact List.sublist_cons_self k2 _
    · simp only [removeKey, if_neg h2, List.map_cons]
      exact List.Sublist.cons₂ k2 ih

/-- C7: on an object with distinct top-level keys holding `stages` and
`offset_seconds`, the transformation succeeds; the result maps `plans` to the
one-element list `[{start_time_seconds: 0, stages: old, offset_seconds:
old}]`, no longer has `stages` or `offset_seconds`, and maps every other key
to its old value. -/
theorem upgrade_plans_spec (data : List (String × JValue)) (s o : JValue)
    (hnd : (data.map Prod.fst).Nodup)
    (hs : dictGet data "stages" = some s)
    (ho : dictGet data "offset_seconds" = some o) :
    (UpgradePlans.upgrade data).isSome = true ∧
    ∀ out, UpgradePlans.upgrade data = some out →
      dictGet out "plans" =
        some (JValue.arr [JValue.obj
          [("start_time_seconds", JValue.num 0), ("stages", s), ("offset_seconds", o)]]) ∧
      dictGet out "stages" = none ∧
      dictGet out "offset_seconds" = none ∧
      ∀ k, k ≠ "plans" → k ≠ "stages" → k ≠ "offset_seconds" →
        dictGet out k = dictGet data k := by
  have hstep : UpgradePlans.upgrade data =
      some (removeKey (removeKey
        (dictSet data "plans"
          (JValue.arr [JValue.obj
            [("start_time_seconds", JValue.num 0),
             ("stages", s),
             ("offset_seconds", o)]]))
        "stages") "offset_seconds") := by
    unfold UpgradePlans.upgrade
    rw [hs, ho]
  refine ⟨by rw [hstep]; rfl, ?_⟩
  intro out hout
  rw [hstep] at hout
  injection hout with hout
  subst hout
  have hndA : ((dictSet data "plans"
      (JValue.arr [JValue.obj
        [("start_time_seconds", JValue.num 0),
         ("stages", s),
         ("offset_seconds", o)]])).map Prod.fst).Nodup :=
    nodup_map_fst_dictSet hnd _ _
  have hndB : ((removeKey (dictSet data "plans"
      (JValue.arr [JValue.obj
        [("start_time_seconds", JValue.num 0),
         ("stages", s),
         ("offset_seconds", o)]])) "stages").map Prod.fst).Nodup :=
    hndA.sublist (map_fst_removeKey_sublist _ _)
  refine ⟨?_, ?_, ?_, ?_⟩
  · rw [dictGet_removeKey_ne _ (by decide), dictGet_removeKey_ne _ (by decide),
      dictGet_dictSet, if_pos rfl]
  · rw [dictGet_removeKey_ne _ (by decide), dictGet_removeKey_self hndA]
  · rw [dictGet_removeKey_self hndB]
  · intro k hk1 hk2 hk3
    rw [dictGet_removeKey_ne _ hk3, dictGet_removeKey_ne _ hk2, dictGet_dictSet,
      if_neg (fun hh => hk1 hh.symm)]

/-- Witness for C7 at a three-key object. -/
theorem upgrade_plans_spec_witness :
    (UpgradePlans.upgrade
      [("stages", JValue.arr []), ("offset_seconds", JValue.num 2),
       ("other", JValue.str "x")]).isSome = true :=
  (upgrade_plans_spec
    [("stages", JValue.arr []), ("offset_seconds", JValue.num 2),
     ("other", JValue.str "x")]
    (JValue.arr []) (JValue.num 2) (by decide) rfl rfl).1

/-! ## `abst_helpers.run_sim` (claim C9)

`run_sim` (lines 20-43) loads the scenario, advances the clock, fetches the
finished trips and aggregates them: a trip with `mode` `None` is aborted and
only counted; otherwise `trip_times[trip['id']] = trip['duration']`; and
independently `capped_trips.add(trip['id'])` whenever `trip['capped']` is
truthy.  The HTTP steps are outside this claim; the embedding takes the raw
trip list as input and returns the `Results` triple
`(num_aborted, trip_times, capped_trips)`. -/

namespace AbstHelpers

/-- One raw finished trip, by the four fields the loop consults. -/
structure RawTrip where
  id : Nat
  duration : ℚ
  mode : Option String
  capped : Bool
  deriving DecidableEq, Repr

/-- The aggregation loop of `run_sim` (lines 32-41). -/
def run_sim_loop : Nat → List (Nat × ℚ) → List Nat → List RawTrip →
    Nat × List (Nat × ℚ) × List Nat
  | num_aborted, trip_times, capped_trips, [] => (num_aborted, trip_times, capped_trips)
  | num_aborted, trip_times, capped_trips, trip :: rest =>
    match trip.mode with
    | none =>
      run_sim_loop (num_aborted + 1) trip_times
        (if trip.capped then setAdd capped_trips trip.id else capped_trips) rest
    | some _ =>
      run_sim_loop num_aborted (dictSet trip_times trip.id trip.duration)
        (if trip.capped then setAdd capped_trips trip.id else capped_trips) rest

/-- `run_sim`'s `Results` on the fetched raw trips. -/
def run_sim (raw_trips : List RawTrip) : Nat × List (Nat × ℚ) × List Nat :=
  run_sim_loop 0 [] [] raw_trips

end AbstHelpers

lemma mem_map_fst_dictSet {α β : Type} [DecidableEq α] (l : List (α × β)) (k i : α) (v : β) :
    i ∈ (dictSet l k v).map Prod.fst ↔ i ∈ l.map Prod.fst ∨ i = k := by
  rw [map_fst_dictSet]
  by_cases hm : k ∈ l.map Prod.fst
  · rw [if_pos hm]
    constructor
    · exact fun h => Or.inl h
    · rintro (h | rfl)
      · exact h
      · exact hm
  · rw [if_neg hm]
    simp

lemma run_sim_loop_count (raw : List AbstHelpers.RawTrip) (n : Nat)
    (tt : List (Nat × ℚ)) (cp : List Nat)
    (hnd : (raw.map AbstHelpers.RawTrip.id).Nodup)
    (hdisj : ∀ t ∈ raw, t.id ∉ tt.map Prod.fst) :
    (AbstHelpers.run_sim_loop n tt cp raw).1 =
      n + raw.countP (fun t => t.mode.isNone) ∧
    (AbstHelpers.run_sim_loop n tt cp raw).2.1.length =
      tt.length + raw.countP (fun t => t.mode.isSome) := by
  induction raw generalizing n tt cp with
  | nil => simp [AbstHelpers.run_sim_loop]
  | cons trip rest ih =>
    simp only [List.map_cons, List.nodup_cons] at hnd
    have hfresh : trip.id ∉ tt.map Prod.fst := hdisj trip (List.mem_cons_self _ _)
    cases hm : trip.mode with
    | none =>
      have hrest := ih (n + 1) tt
        (if trip.capped then setAdd cp trip.id else cp) hnd.2
        (fun t ht => hdisj t (List.mem_cons_of_mem _ ht))
      simp only [AbstHelpers.run_sim_loop, hm]
      rw [hrest.1, hrest.2, List.countP_cons, List.countP_cons, hm]
      simp
      omega
    | some mo =>
      have hset : dictSet tt trip.id trip.duration = tt ++ [(trip.id, trip.duration)] := by
        clear hdisj hnd ih
        induction tt with
        | nil => rfl
        | cons p ttrest ihtt =>
          obtain ⟨k2, v2⟩ := p
          simp only [List.map_cons, List.mem_cons] at hfresh
          push_neg at hfresh
          have : ¬ k2 = trip.id := fun hh => hfresh.1 hh.symm
          simp [dictSet, this, ihtt hfresh.2]
      have hdisj' : ∀ t ∈ rest, t.id ∉ (dictSet tt trip.id trip.duration).map Prod.fst := by
        intro t ht
        rw [mem_map_fst_dictSet]
        push_neg
        refine ⟨hdisj t (List.mem_cons_of_mem _ ht), ?_⟩
        intro hh
        exact hnd.1 (hh ▸ List.mem_map_of_mem AbstHelpers.RawTrip.id ht)
      have hrest := ih n (dictSet tt trip.id trip.duration)
        (if trip.capped then setAdd cp trip.id else cp) hnd.2 hdisj'
      simp only [AbstHelpers.run_sim_loop, hm]
      rw [hrest.1, hrest.2, List.countP_cons, List.countP_cons, hm, hset]
      simp
      omega

lemma run_sim_loop_lookup_untouched (raw : List AbstHelpers.RawTrip) (n : Nat)
    (tt : List (Nat × ℚ)) (cp : List Nat) (i : Nat)
    (h : ∀ t ∈ raw, t.id ≠ i) :
    dictGet (AbstHelpers.run_sim_loop n tt cp raw).2.1 i = dictGet tt i := by
  induction raw generalizing n tt cp with
  | nil => rfl
  | cons trip rest ih =>
    cases hm : trip.mode with
    | none =>
      simp only [AbstHelpers.run_sim_loop, hm]
      exact ih _ _ _ (fun t ht => h t (List.mem_cons_of_mem _ ht))
    | some mo =>
      simp only [AbstHelpers.run_sim_loop, hm]
      rw [ih _ _ _ (fun t ht => h t (List.mem_cons_of_mem _ ht)), dictGet_dictSet,
        if_neg (h trip (List.mem_cons_self _ _))]

lemma run_sim_loop_lookup (raw : List AbstHelpers.RawTrip) (n : Nat)
    (tt : List (Nat × ℚ)) (cp : List Nat)
    (hnd : (raw.map AbstHelpers.RawTrip.id).Nodup) :
    ∀ t ∈ raw, t.mode ≠ none →
      dictGet (AbstHelpers.run_sim_loop n tt cp raw).2.1 t.id = some t.duration := by
  induction raw generalizing n tt cp with
  | nil => exact fun t ht _ => absurd ht (List.not_mem_nil t)
  | cons trip rest ih =>
    intro t ht hmode
    simp only [List.map_cons, List.nodup_cons] at hnd
    rcases List.mem_cons.mp ht with rfl | htr
    · cases hm : t.mode with
      | none => exact absurd hm hmode
      | some mo =>
        simp only [AbstHelpers.run_sim_loop, hm]
        have huntouched : ∀ t' ∈ rest, t'.id ≠ t.id := by
          intro t' ht' hh
          exact hnd.1 (hh ▸ List.mem_map_of_mem AbstHelpers.RawTrip.id ht')
        rw [run_sim_loop_lookup_untouched rest _ _ _ _ huntouched, dictGet_dictSet,
          if_pos rfl]
    · cases hm : trip.mode with
      | none =>
        simp only [AbstHelpers.run_sim_loop, hm]
        exact ih _ _ _ hnd.2 t htr hmode
      | some mo =>
        simp only [AbstHelpers.run_sim_loop, hm]
        exact ih _ _ _ hnd.2 t htr hmode

lemma run_sim_loop_keys (raw : List AbstHelpers.RawTrip) (n : Nat)
    (tt : List (Nat × ℚ)) (cp : List Nat) :
    ∀ i, i ∈ (AbstHelpers.run_sim_loop n tt cp raw).2.1.map Prod.fst ↔
      i ∈ tt.map Prod.fst ∨ ∃ t ∈ raw, t.id = i ∧ t.mode ≠ none := by
  induction raw generalizing n tt cp with
  | nil =>
    intro i
    simp [AbstHelpers.run_sim_loop]
  | cons trip rest ih =>
    intro i
    cases hm : trip.mode with
    | none =>
      simp only [AbstHelpers.run_sim_loop, hm]
      rw [ih]
      simp [List.exists_mem_cons_iff, hm]
    | some mo =>
      simp only [AbstHelpers.run_sim_loop, hm]
      rw [ih, mem_map_fst_dictSet]
      simp only [List.exists_mem_cons_iff, hm]
      constructor
      · rintro ((h | rfl) | h)
        · exact Or.inl h
        · exact Or.inr (Or.inl ⟨rfl, by simp [hm]⟩)
        · exact Or.inr (Or.inr h)
      · rintro (h | (⟨rfl, _⟩ | h))
        · exact Or.inl (Or.inl h)
        · exact Or.inl (Or.inr rfl)
        · exact Or.inr h

lemma run_sim_loop_capped (raw : List AbstHelpers.RawTrip) (n : Nat)
    (tt : List (Nat × ℚ)) (cp : List Nat) :
    ∀ i, i ∈ (AbstHelpers.run_sim_loop n tt cp raw).2.2 ↔
      i ∈ cp ∨ ∃ t ∈ raw, t.id = i ∧ t.capped = true := by
  induction raw generalizing n tt cp with
  | nil =>
    intro i
    simp [AbstHelpers.run_sim_loop]
  | cons trip rest ih =>
    intro i
    have hstep : (AbstHelpers.run_sim_loop n tt cp (trip :: rest)).2.2 =
        (AbstHelpers.run_sim_loop
          (match trip.mode with | none => n + 1 | some _ => n)
          (match trip.mode with
            | none => tt
            | some _ => dictSet tt trip.id trip.duration)
          (if trip.capped then setAdd cp trip.id else cp) rest).2.2 := by
      cases hm : trip.mode <;> simp [AbstHelpers.run_sim_loop, hm]
    rw [hstep, ih]
    by_cases hc : trip.capped
    · rw [if_pos hc]
      simp only [mem_setAdd, List.exists_mem_cons_iff, hc]
      constructor
      · rintro ((h | rfl) | h)
        · exact Or.inl h
        · exact Or.inr (Or.inl ⟨rfl, trivial⟩)
        · exact Or.inr (Or.inr h)
      · rintro (h | (⟨rfl, _⟩ | h))
        · exact Or.inl (Or.inl h)
        · exact Or.inl (Or.inr rfl)
        · exact Or.inr h
    · rw [if_neg hc]
      simp only [List.exists_mem_cons_iff]
      constructor
      · rintro (h | h)
        · exact Or.inl h
        · exact Or.inr (Or.inr h)
      · rintro (h | (⟨rfl, hcap⟩ | h))
        · exact Or.inl h
        · exact absurd hcap (by simpa using hc)
        · exact Or.inr h

lemma countP_mode_split (raw : List AbstHelpers.RawTrip) :
    raw.countP (fun t => t.mode.isNone) + raw.countP (fun t => t.mode.isSome) =
      raw.length := by
  induction raw with
  | nil => rfl
  | cons t rest ih =>
    cases hm : t.mode <;> simp [List.countP_cons, hm] <;> omega

/-- C9: on raw trips with pairwise distinct IDs, `run_sim`'s `Results`
partition the trips: `num_aborted` plus the number of `trip_times` entries is
the number of raw trips; an ID is a key of `trip_times` exactly when its
trip's mode is not `None`, and then maps to that trip's duration; and
`capped_trips` holds exactly the IDs of trips whose `capped` field is
truthy. -/
theorem run_sim_partition (raw : List AbstHelpers.RawTrip)
    (hnd : (raw.map AbstHelpers.RawTrip.id).Nodup) :
    (AbstHelpers.run_sim raw).1 + (AbstHelpers.run_sim raw).2.1.length = raw.length ∧
    (∀ i, i ∈ (AbstHelpers.run_sim raw).2.1.map Prod.fst ↔
      ∃ t ∈ raw, t.id = i ∧ t.mode ≠ none) ∧
    (∀ t ∈ raw, t.mode ≠ none →
      dictGet (AbstHelpers.run_sim raw).2.1 t.id = some t.duration) ∧
    (∀ i, i ∈ (AbstHelpers.run_sim raw).2.2 ↔
      ∃ t ∈ raw, t.id = i ∧ t.capped = true) := by
  have hcnt := run_sim_loop_count raw 0 [] [] hnd (by simp)
  refine ⟨?_, ?_, ?_, ?_⟩
  · rw [AbstHelpers.run_sim, hcnt.1, hcnt.2]
    have := countP_mode_split raw
    simp only [List.length_nil, Nat.zero_add]
    omega
  · intro i
    rw [AbstHelpers.run_sim, run_sim_loop_keys]
    simp
  · exact run_sim_loop_lookup raw 0 [] [] hnd
  · intro i
    rw [AbstHelpers.run_sim, run_sim_loop_capped]
    simp

/-- Witness for C9 at three concrete trips (one aborted, one capped). -/
theorem run_sim_partition_witness :
    (AbstHelpers.run_sim
      [⟨1, 5, some "Drive", false⟩, ⟨2, 7, none, true⟩, ⟨3, 4, some "Walk", true⟩]).1 +
    (AbstHelpers.run_sim
      [⟨1, 5, some "Drive", false⟩, ⟨2, 7, none, true⟩, ⟨3, 4, some "Walk", true⟩]).2.1.length =
    (([⟨1, 5, some "Drive", false⟩, ⟨2, 7, none, true⟩,
        ⟨3, 4, some "Walk", true⟩] : List AbstHelpers.RawTrip)).length :=
  (run_sim_partition
    [⟨1, 5, some "Drive", false⟩, ⟨2, 7, none, true⟩, ⟨3, 4, some "Walk", true⟩]
    (by decide)).1
